import Mathlib

/-!
Verification of the nono capability model against its specification.

The capability engine (access lattice, capability set, query engine,
serialization, raw-rule filter) is shipped as a native module whose sources
are not in this repository checkout; only its Python tests, examples and the
specification are. Every definition below is therefore modelled from the
spec (and pinned by the behaviour the tests assert), as noted in its doc
comment. Paths are represented as canonical component lists: symlink
resolution and elimination of dot segments happen before the model starts,
so the spec's lexical "subpath along path-component boundaries" is list
prefixing.
-/

/-- Modelled from the spec: the closed three-value access mode set
`R`, `W`, `RW` (Python names READ, WRITE, READ_WRITE). -/
inductive AccessMode where
  | READ
  | WRITE
  | READ_WRITE
deriving DecidableEq, Repr, Fintype

/-- Modelled from the spec: lattice join, with `RW = R ⊔ W`. -/
def AccessMode.join : AccessMode → AccessMode → AccessMode
  | .READ, .READ => .READ
  | .WRITE, .WRITE => .WRITE
  | _, _ => .READ_WRITE

/-- Modelled from the spec: `covers a b` iff `b ⊑ a` in the lattice
`R ⊑ RW`, `W ⊑ RW`, `R` and `W` incomparable. -/
def AccessMode.covers : AccessMode → AccessMode → Bool
  | .READ_WRITE, _ => true
  | .READ, .READ => true
  | .WRITE, .WRITE => true
  | _, _ => false

/-- Modelled from the spec and `test_access_mode.py::test_str`: the
human-readable conversion used by Python `str`. -/
def AccessMode.str : AccessMode → String
  | .READ => "read"
  | .WRITE => "write"
  | .READ_WRITE => "read+write"

/-- Modelled from the spec §4.5: the serialized text form of an access
mode, `"R" | "W" | "RW"`. -/
def AccessMode.text : AccessMode → String
  | .READ => "R"
  | .WRITE => "W"
  | .READ_WRITE => "RW"

/-- Modelled from the spec: origin of a grant, `user`, `group(name)` or
`system`; purely informational. -/
inductive CapabilitySource where
  | user
  | group (name : String)
  | system
deriving DecidableEq, Repr

/-- Modelled from the spec §3 (dedup source collapse): `user` if either
side is `user`, else unchanged if uniform, else `system`. -/
def CapabilitySource.merge : CapabilitySource → CapabilitySource → CapabilitySource
  | .user, _ => .user
  | _, .user => .user
  | a, b => if a = b then a else .system

/-- A canonical absolute path, as its list of components. (The engine's
own name `Path` is taken by Mathlib.) -/
abbrev FsPath := List String

/-- Modelled from the spec §3: a filesystem capability record. -/
structure FsCapability where
  original : String
  resolved : FsPath
  access : AccessMode
  is_file : Bool
  source : CapabilitySource
deriving DecidableEq, Repr

/-- The dedup key of a capability: its `(resolved, is_file)` pair. -/
def FsCapability.key (c : FsCapability) : FsPath × Bool :=
  (c.resolved, c.is_file)

/-- Modelled from the spec §3: merging two capabilities that share a key
joins the accesses and collapses the sources; the first occurrence keeps
its `original` and position. -/
def FsCapability.merge (c d : FsCapability) : FsCapability :=
  { c with access := c.access.join d.access, source := c.source.merge d.source }

/-- Modelled from the spec §3: the mutable capability set. -/
structure CapabilitySet where
  fs : List FsCapability
  net_blocked : Bool
  cmd_allow : List String
  cmd_block : List String
  raw_rules : List String
deriving DecidableEq, Repr

/-- Modelled from the spec: the empty capability set produced by the
constructor. -/
def CapabilitySet.new : CapabilitySet :=
  ⟨[], false, [], [], []⟩

/-- Modelled from the spec §7: the error taxonomy kinds touched by the
claims, each carrying the offending path or message. -/
inductive Err where
  | NotFound (path : String)
  | WrongKind (path : String)
  | Invalid (msg : String)
deriving DecidableEq, Repr

/-- Abstract view of the live filesystem during registration: each entry
maps a caller-supplied path string to its canonical resolution and kind
(`true` = regular file, `false` = directory). -/
abbrev FileSystem := List (String × FsPath × Bool)

/-- Look a caller-supplied path up in the filesystem model. -/
def FileSystem.lookup (fsys : FileSystem) (p : String) : Option (FsPath × Bool) :=
  (List.find? (fun e => e.1 = p) fsys).map (fun e => e.2)

/-- Modelled from the spec §4.1: canonicalize and require a directory. -/
def FileSystem.resolve_dir (fsys : FileSystem) (p : String) : Except Err FsPath :=
  match fsys.lookup p with
  | none => .error (.NotFound p)
  | some (r, isf) => if isf then .error (.WrongKind p) else .ok r

/-- Modelled from the spec §4.1: canonicalize and require a regular file. -/
def FileSystem.resolve_file (fsys : FileSystem) (p : String) : Except Err FsPath :=
  match fsys.lookup p with
  | none => .error (.NotFound p)
  | some (r, isf) => if isf then .ok r else .error (.WrongKind p)

/-- Modelled from the spec §4.3: `allow_path` resolves `p` as a directory
and appends a directory capability; on a resolver error the set is
unchanged and the error propagates. -/
def CapabilitySet.allow_path (caps : CapabilitySet) (fsys : FileSystem)
    (p : String) (m : AccessMode) : Except Err CapabilitySet := do
  let r ← fsys.resolve_dir p
  .ok { caps with fs := caps.fs ++ [⟨p, r, m, false, .user⟩] }

/-- Modelled from the spec §4.3: `allow_file` resolves `p` as a regular
file and appends a file capability. -/
def CapabilitySet.allow_file (caps : CapabilitySet) (fsys : FileSystem)
    (p : String) (m : AccessMode) : Except Err CapabilitySet := do
  let r ← fsys.resolve_file p
  .ok { caps with fs := caps.fs ++ [⟨p, r, m, true, .user⟩] }

/-- Modelled from the spec §4.3: `block_network` sets the flag; idempotent. -/
def CapabilitySet.block_network (caps : CapabilitySet) : CapabilitySet :=
  { caps with net_blocked := true }

/-- Modelled from the spec §4.3: `allow_command` records metadata; the
command lists behave as sets. -/
def CapabilitySet.allow_command (caps : CapabilitySet) (name : String) : CapabilitySet :=
  { caps with
    cmd_allow := if caps.cmd_allow.contains name then caps.cmd_allow
                 else caps.cmd_allow ++ [name] }

/-- Modelled from the spec §4.3: `block_command` records metadata. -/
def CapabilitySet.block_command (caps : CapabilitySet) (name : String) : CapabilitySet :=
  { caps with
    cmd_block := if caps.cmd_block.contains name then caps.cmd_block
                 else caps.cmd_block ++ [name] }

/-- Modelled from the spec §4.6: the verbs whose pairing with a root
subpath nullifies the sandbox. -/
def forbiddenVerbs : List String :=
  ["file-read*", "file-write*", "process-exec", "network*"]

/-- Substring containment on strings, over their character lists. -/
def strContains (hay needle : String) : Bool :=
  decide (needle.data <:+: hay.data)

/-- Modelled from the spec §4.6: the raw-rule safety filter. A rule is
rejected when it mentions a `subpath "/"` together with any forbidden
verb, or opens an unconditional `(allow default)` grant. -/
def ruleTooBroad (raw : String) : Bool :=
  (strContains raw "subpath \"/\"" && forbiddenVerbs.any (fun v => strContains raw v))
    || strContains raw "(allow default)"

/-- Modelled from the spec §4.3: `platform_rule` vets the raw rule with
the safety filter; on rejection it raises `Invalid` and the set is
unchanged, on accept the rule is appended to `raw_rules`. -/
def CapabilitySet.platform_rule (caps : CapabilitySet) (raw : String) :
    Except Err CapabilitySet :=
  if ruleTooBroad raw then .error (.Invalid "rule_too_broad")
  else .ok { caps with raw_rules := caps.raw_rules ++ [raw] }

/-- Modelled from the spec §4.3/§3: `deduplicate` merges all entries that
share a `(resolved, is_file)` key into the first occurrence, joining
accesses and collapsing sources, keeping first-occurrence order. -/
def dedupFs : List FsCapability → List FsCapability
  | [] => []
  | c :: rest =>
    ((rest.filter (fun d => d.key = c.key)).foldl FsCapability.merge c)
      :: dedupFs (rest.filter (fun d => ¬ d.key = c.key))
termination_by l => l.length
decreasing_by
  simp only [List.length_cons]
  exact Nat.lt_succ_of_le (List.length_filter_le _ _)

/-- Modelled from the spec §4.3: `deduplicate` on a capability set. -/
def CapabilitySet.deduplicate (caps : CapabilitySet) : CapabilitySet :=
  { caps with fs := dedupFs caps.fs }

/-- Keep-first-occurrence deduplication of a key sequence, stated from
the spec's words ("the surviving entry keeps the position of the first
occurrence"); used to compare against `dedupFs`. -/
def firstOccurrences : List (FsPath × Bool) → List (FsPath × Bool)
  | [] => []
  | k :: ks => k :: firstOccurrences (ks.filter (fun x => ¬ x = k))
termination_by l => l.length
decreasing_by
  simp only [List.length_cons]
  exact Nat.lt_succ_of_le (List.length_filter_le _ _)

/-- Modelled from the spec §4.4 step 2: whether a capability matches a
(canonicalized) queried path. A file capability matches only the exact
resolved path; a directory capability also matches paths lexically under
it along component boundaries. -/
def FsCapability.matches (c : FsCapability) (p : FsPath) : Bool :=
  if c.is_file then decide (p = c.resolved)
  else decide (p = c.resolved) || c.resolved.isPrefixOf p

/-- The capabilities matching `p`, in insertion order (spec §4.4). -/
def matchingCaps (caps : CapabilitySet) (p : FsPath) : List FsCapability :=
  caps.fs.filter (fun c => c.matches p)

/-- Modelled from the spec §4.4 step 4: the join `G` of the access modes
of all matching capabilities, `none` when nothing matches. -/
def grantedFor (caps : CapabilitySet) (p : FsPath) : Option AccessMode :=
  match matchingCaps caps p with
  | [] => none
  | c :: cs => some (cs.foldl (fun a d => a.join d.access) c.access)

/-- Modelled from the spec §4.4 step 4: the best matching capability is
the longest match, ties broken by earliest insertion. -/
def bestMatch (c : FsCapability) (cs : List FsCapability) : FsCapability :=
  cs.foldl (fun b d => if b.resolved.length < d.resolved.length then d else b) c

/-- Modelled from the spec §6: a query outcome dictionary; absent
optional keys are `none`. -/
structure QueryOutcome where
  status : String
  reason : String
  granted_path : Option FsPath := none
  granted : Option AccessMode := none
  requested : Option AccessMode := none
deriving DecidableEq, Repr

/-- Modelled from the spec §4.4: `query_path` over a capability snapshot.
The queried path is taken already canonicalized (step 1 of the spec is
the filesystem-side canonicalization outside this model). -/
def queryPath (caps : CapabilitySet) (p : FsPath) (m : AccessMode) : QueryOutcome :=
  match matchingCaps caps p with
  | [] => { status := "denied", reason := "path_not_granted" }
  | c :: cs =>
    let g := cs.foldl (fun a d => a.join d.access) c.access
    if g.covers m then
      { status := "allowed", reason := "granted_path",
        granted_path := some (bestMatch c cs).resolved,
        granted := some g, requested := some m }
    else
      { status := "denied", reason := "insufficient_access",
        granted := some g, requested := some m }

/-- Modelled from the spec §4.4: `query_network` over a snapshot. -/
def queryNetwork (caps : CapabilitySet) : QueryOutcome :=
  if caps.net_blocked then { status := "denied", reason := "network_blocked" }
  else { status := "allowed", reason := "network_allowed" }

/-- Modelled from the spec §4.4: a query context deep-copies the
capability set at construction time. -/
structure QueryContext where
  snapshot : CapabilitySet
deriving DecidableEq, Repr

/-- Constructing a query context takes the set's current value. -/
def QueryContext.ofCaps (caps : CapabilitySet) : QueryContext :=
  ⟨caps⟩

/-- `query_path` on a query context. -/
def QueryContext.query_path (ctx : QueryContext) (p : FsPath) (m : AccessMode) :
    QueryOutcome :=
  queryPath ctx.snapshot p m

/-- `query_network` on a query context. -/
def QueryContext.query_network (ctx : QueryContext) : QueryOutcome :=
  queryNetwork ctx.snapshot

/-- The mutations of a capability set named by the spec §4.3, as data, so
that the snapshot property can quantify over them. -/
inductive Mutation where
  | allowPath (p : String) (m : AccessMode)
  | allowFile (p : String) (m : AccessMode)
  | blockNetwork
  | allowCommand (name : String)
  | blockCommand (name : String)
  | platformRule (raw : String)
  | dedup
deriving DecidableEq, Repr

/-- Run one mutation against the live filesystem; a failing mutation
(missing path, rejected rule) leaves the set unchanged, as the engine's
exceptions do. -/
def applyMutation (fsys : FileSystem) (caps : CapabilitySet) : Mutation → CapabilitySet
  | .allowPath p m => (caps.allow_path fsys p m).toOption.getD caps
  | .allowFile p m => (caps.allow_file fsys p m).toOption.getD caps
  | .blockNetwork => caps.block_network
  | .allowCommand n => caps.allow_command n
  | .blockCommand n => caps.block_command n
  | .platformRule r => (caps.platform_rule r).toOption.getD caps
  | .dedup => caps.deduplicate

/-- A session holding the mutable source set alongside a query context
constructed from it; mutations act on the source set only. -/
structure Session where
  caps : CapabilitySet
  ctx : QueryContext

/-- Open a session: construct the query context from the set (deep copy). -/
def Session.start (caps : CapabilitySet) : Session :=
  ⟨caps, QueryContext.ofCaps caps⟩

/-- Mutate the source capability set of a session. -/
def Session.step (fsys : FileSystem) (s : Session) (μ : Mutation) : Session :=
  ⟨applyMutation fsys s.caps μ, s.ctx⟩

/-- Run a sequence of mutations on the session's source set. -/
def Session.run (fsys : FileSystem) (s : Session) (μs : List Mutation) : Session :=
  μs.foldl (Session.step fsys) s

/-- Error-propagating map over a list: the whole traversal fails on the
first failing element, producing nothing partial. -/
def mapE (f : α → Except Err β) : List α → Except Err (List β)
  | [] => .ok []
  | a :: l => do
    let b ← f a
    let bs ← mapE f l
    .ok (b :: bs)

/-- A JSON syntax tree. The canonical text form of the spec §4.5 is
modelled at this level: printing and parsing of JSON text is generic and
outside the model. -/
inductive Json where
  | jnull
  | jbool (b : Bool)
  | jnum (n : Int)
  | jstr (s : String)
  | jarr (xs : List Json)
  | jobj (fields : List (String × Json))

/-- Modelled from the spec §3: a serialized fs entry carries only
`original`, `access`, `is_file`, `source`; `resolved` is recomputed on
materialization. -/
structure StateEntry where
  original : String
  access : AccessMode
  is_file : Bool
  source : CapabilitySource
deriving DecidableEq, Repr

/-- Modelled from the spec §3: the immutable serializable snapshot. -/
structure SandboxState where
  fs : List StateEntry
  net_blocked : Bool
  cmd_allow : List String
  cmd_block : List String
  raw_rules : List String
deriving DecidableEq, Repr

/-- Byte-wise lexicographic strict comparison of strings, used for the
canonical ascending order of serialized command lists. -/
def charListLt : List Char → List Char → Bool
  | [], [] => false
  | [], _ :: _ => true
  | _ :: _, [] => false
  | c :: cs, d :: ds => if c < d then true else if d < c then false else charListLt cs ds

/-- Strict lexicographic order on strings. -/
def strLt (a b : String) : Bool :=
  charListLt a.data b.data

/-- Insert a string into an ascending list. -/
def insertStr (s : String) : List String → List String
  | [] => [s]
  | t :: ts => if strLt s t then s :: t :: ts else t :: insertStr s ts

/-- Ascending insertion sort for the canonical command-list order. -/
def sortStrings : List String → List String
  | [] => []
  | s :: ss => insertStr s (sortStrings ss)

/-- A string list is strictly ascending (the form a serialized set takes). -/
def strAscending : List String → Bool
  | [] => true
  | [_] => true
  | a :: b :: rest => strLt a b && strAscending (b :: rest)

/-- Modelled from the spec §4.5: encode a capability source. -/
def encodeSource : CapabilitySource → Json
  | .user => .jobj [("kind", .jstr "user")]
  | .group n => .jobj [("kind", .jstr "group"), ("name", .jstr n)]
  | .system => .jobj [("kind", .jstr "system")]

/-- Modelled from the spec §4.5: decode a capability source, rejecting
anything but the three recognized shapes. -/
def decodeSource : Json → Except Err CapabilitySource
  | .jobj [("kind", .jstr "user")] => .ok .user
  | .jobj [("kind", .jstr "group"), ("name", .jstr n)] => .ok (.group n)
  | .jobj [("kind", .jstr "system")] => .ok .system
  | _ => .error (.Invalid "bad source")

/-- Schema validity of a source object, stated from the spec's table. -/
def validSourceJson : Json → Bool
  | .jobj [("kind", .jstr "user")] => true
  | .jobj [("kind", .jstr "group"), ("name", .jstr _)] => true
  | .jobj [("kind", .jstr "system")] => true
  | _ => false

/-- Modelled from the spec §4.5: decode an access string. -/
def decodeAccess : Json → Except Err AccessMode
  | .jstr "R" => .ok .READ
  | .jstr "W" => .ok .WRITE
  | .jstr "RW" => .ok .READ_WRITE
  | _ => .error (.Invalid "bad access")

/-- Schema validity of an access value, from the spec's table. -/
def validAccessJson : Json → Bool
  | .jstr "R" => true
  | .jstr "W" => true
  | .jstr "RW" => true
  | _ => false

/-- Modelled from the spec §4.5: encode one fs entry. -/
def encodeEntry (e : StateEntry) : Json :=
  .jobj [("original", .jstr e.original), ("access", .jstr e.access.text),
         ("is_file", .jbool e.is_file), ("source", encodeSource e.source)]

/-- Modelled from the spec §4.5: decode one fs entry, requiring exactly
the recognized keys with well-typed values. -/
def decodeEntry : Json → Except Err StateEntry
  | .jobj [("original", .jstr o), ("access", a), ("is_file", .jbool f), ("source", s)] => do
    let am ← decodeAccess a
    let src ← decodeSource s
    .ok ⟨o, am, f, src⟩
  | _ => .error (.Invalid "bad fs entry")

/-- Schema validity of one fs entry, from the spec's table. -/
def validEntryJson : Json → Bool
  | .jobj [("original", .jstr _), ("access", a), ("is_file", .jbool _), ("source", s)] =>
    validAccessJson a && validSourceJson s
  | _ => false

/-- Decode a single JSON string value. -/
def decodeStr : Json → Except Err String
  | .jstr s => .ok s
  | _ => .error (.Invalid "expected string")

/-- Decode a JSON array of strings. -/
def decodeStrList : Json → Except Err (List String)
  | .jarr xs => mapE decodeStr xs
  | _ => .error (.Invalid "expected array of strings")

/-- Whether a JSON value is a string. -/
def isStrJson : Json → Bool
  | .jstr _ => true
  | _ => false

/-- Schema validity of a string array. -/
def validStrListJson : Json → Bool
  | .jarr xs => xs.all isStrJson
  | _ => false

/-- Modelled from the spec §4.5: `to_text`, at the JSON-tree level.
Deterministic: keys in the listed order, `fs` in insertion order,
command lists sorted ascending. -/
def SandboxState.to_json (s : SandboxState) : Json :=
  .jobj [("fs", .jarr (s.fs.map encodeEntry)),
         ("net_blocked", .jbool s.net_blocked),
         ("cmd_allow", .jarr ((sortStrings s.cmd_allow).map .jstr)),
         ("cmd_block", .jarr ((sortStrings s.cmd_block).map .jstr)),
         ("raw_rules", .jarr (s.raw_rules.map .jstr)),
         ("version", .jnum 1)]

/-- Modelled from the spec §4.5: `from_text`, at the JSON-tree level.
Strictly validating: fails with `Invalid` on any schema violation
(missing or extra keys, wrong types, unknown version); touches no
filesystem (it takes none). -/
def SandboxState.from_json : Json → Except Err SandboxState
  | .jobj [("fs", .jarr entries), ("net_blocked", .jbool nb), ("cmd_allow", ca),
           ("cmd_block", cb), ("raw_rules", rr), ("version", .jnum 1)] => do
    let fsE ← mapE decodeEntry entries
    let caL ← decodeStrList ca
    let cbL ← decodeStrList cb
    let rrL ← decodeStrList rr
    .ok ⟨fsE, nb, caL, cbL, rrL⟩
  | _ => .error (.Invalid "schema violation")

/-- Well-formed serialized state text, stated from the spec §4.5 table: a
single version-1 object with exactly the recognized keys and well-typed
values. -/
def validStateJson : Json → Bool
  | .jobj [("fs", .jarr entries), ("net_blocked", .jbool _), ("cmd_allow", ca),
           ("cmd_block", cb), ("raw_rules", rr), ("version", .jnum 1)] =>
    entries.all validEntryJson && validStrListJson ca && validStrListJson cb
      && validStrListJson rr
  | _ => false

/-- Modelled from the spec §3/§4.5: `from_caps` projects a capability set
to its serializable snapshot, dropping `resolved` and canonicalizing the
command sets. -/
def SandboxState.from_caps (caps : CapabilitySet) : SandboxState :=
  ⟨caps.fs.map (fun c => ⟨c.original, c.access, c.is_file, c.source⟩),
   caps.net_blocked, sortStrings caps.cmd_allow, sortStrings caps.cmd_block,
   caps.raw_rules⟩

/-- Modelled from the spec §4.5: re-resolve one loaded entry via the path
resolver, with the kind recorded in the entry. -/
def resolveEntry (fsys : FileSystem) (e : StateEntry) : Except Err FsPath :=
  if e.is_file then fsys.resolve_file e.original else fsys.resolve_dir e.original

/-- The entry-to-capability conversion used by `to_caps`: re-resolve and
reattach the recorded metadata. -/
def entryToCap (fsys : FileSystem) (e : StateEntry) : Except Err FsCapability := do
  let r ← resolveEntry fsys e
  pure (⟨e.original, r, e.access, e.is_file, e.source⟩ : FsCapability)

/-- Modelled from the spec §4.5: `to_caps` re-resolves every `original`;
any resolver failure aborts the whole conversion, so no partial
capability set is ever produced. -/
def SandboxState.to_caps (s : SandboxState) (fsys : FileSystem) :
    Except Err CapabilitySet := do
  let fsC ← mapE (entryToCap fsys) s.fs
  .ok ⟨fsC, s.net_blocked, s.cmd_allow, s.cmd_block, s.raw_rules⟩

/-- C4. The access lattice laws: the join is an upper bound of both
arguments, `RW` covers everything, and `R` and `W` are incomparable. -/
theorem access_lattice_laws :
    (∀ a b : AccessMode, (a.join b).covers a = true ∧ (a.join b).covers b = true)
    ∧ (∀ x : AccessMode, AccessMode.READ_WRITE.covers x = true)
    ∧ AccessMode.READ.covers .WRITE = false
    ∧ AccessMode.WRITE.covers .READ = false := by
  decide

/-- C10. The three access modes are pairwise distinct; their
human-readable conversions are exactly `read`, `write`, `read+write`,
each distinct from the corresponding serialized form `R`, `W`, `RW`. -/
theorem access_mode_distinct_str :
    (AccessMode.READ ≠ AccessMode.WRITE ∧ AccessMode.READ ≠ AccessMode.READ_WRITE
      ∧ AccessMode.WRITE ≠ AccessMode.READ_WRITE)
    ∧ (AccessMode.READ.str = "read" ∧ AccessMode.WRITE.str = "write"
      ∧ AccessMode.READ_WRITE.str = "read+write")
    ∧ (∀ a : AccessMode, a.str ≠ a.text) := by
  decide

theorem ctx_run_invariant (fsys : FileSystem) (μs : List Mutation) :
    ∀ s : Session, (s.run fsys μs).ctx = s.ctx := by
  induction μs with
  | nil => intro s; rfl
  | cons μ rest ih =>
    intro s
    show ((s.step fsys μ).run fsys rest).ctx = s.ctx
    rw [ih]
    rfl

/-- C3. Query snapshot: a query context is an independent deep snapshot;
running any sequence of capability-set mutations after constructing the
context changes no `query_path` or `query_network` outcome on it. -/
theorem query_snapshot_frame (fsys : FileSystem) (caps : CapabilitySet)
    (μs : List Mutation) (p : FsPath) (m : AccessMode) :
    (((Session.start caps).run fsys μs).ctx.query_path p m
        = (QueryContext.ofCaps caps).query_path p m)
    ∧ (((Session.start caps).run fsys μs).ctx.query_network
        = (QueryContext.ofCaps caps).query_network) := by
  rw [ctx_run_invariant]
  exact ⟨rfl, rfl⟩

/-- C2. Denial outcomes of `query_path`: no matching capability yields
`path_not_granted`; a match whose joined grant does not cover the request
yields `insufficient_access` carrying the joined grant and the request. -/
theorem denial_outcomes (caps : CapabilitySet) (p : FsPath) (m : AccessMode) :
    (matchingCaps caps p = [] →
      queryPath caps p m = { status := "denied", reason := "path_not_granted" })
    ∧ (∀ g, grantedFor caps p = some g → g.covers m = false →
      queryPath caps p m = { status := "denied", reason := "insufficient_access",
                             granted := some g, requested := some m }) := by
  constructor
  · intro h
    simp [queryPath, h]
  · intro g hg hc
    unfold grantedFor at hg
    unfold queryPath
    cases hm : matchingCaps caps p with
    | nil => rw [hm] at hg; exact absurd hg (by simp)
    | cons c cs =>
      rw [hm] at hg
      simp only [Option.some.injEq] at hg
      simp [hg, hc]

/-- Concrete instance of C2: with only a read grant on `/tmp`, querying
`/var/test` is `path_not_granted` and querying `/tmp/somefile` for write
is `insufficient_access` with `granted = R`, `requested = W`. -/
def capsTmpRead : CapabilitySet :=
  ⟨[⟨"/tmp", ["tmp"], .READ, false, .user⟩], false, [], [], []⟩

theorem denial_outcomes_witness :
    queryPath capsTmpRead ["var", "test"] .READ
        = { status := "denied", reason := "path_not_granted" }
    ∧ queryPath capsTmpRead ["tmp", "somefile"] .WRITE
        = { status := "denied", reason := "insufficient_access",
            granted := some .READ, requested := some .WRITE } :=
  ⟨(denial_outcomes capsTmpRead ["var", "test"] .READ).1 (by decide),
   (denial_outcomes capsTmpRead ["tmp", "somefile"] .WRITE).2 .READ (by decide) (by decide)⟩

/-- A set granting `/tmp` twice, once read-only and once write-only. -/
def capsTmpSplit : CapabilitySet :=
  ⟨[⟨"/tmp", ["tmp"], .READ, false, .user⟩, ⟨"/tmp", ["tmp"], .WRITE, false, .user⟩],
   false, [], [], []⟩

/-- C1, counterexample. With separate `R` and `W` grants matching the
same path, a `RW` query is allowed (the engine joins the grants of all
matching capabilities), yet no single matching capability covers `RW`:
the claimed single-capability coherence is false. -/
theorem coherence_single_cap_cex :
    (queryPath capsTmpSplit ["tmp", "x"] .READ_WRITE).status = "allowed"
    ∧ ¬ ∃ c ∈ capsTmpSplit.fs,
        c.matches ["tmp", "x"] = true ∧ c.access.covers .READ_WRITE = true := by
  decide

/-- C1, amended. `query_path(p, m).status == "allowed"` iff some
capability matches `p` and the join `G` of the accesses of all matching
capabilities satisfies `covers(G, m)`. -/
theorem coherence_amended_join (caps : CapabilitySet) (p : FsPath) (m : AccessMode) :
    (queryPath caps p m).status = "allowed"
      ↔ ∃ g, grantedFor caps p = some g ∧ g.covers m = true := by
  unfold queryPath grantedFor
  cases hm : matchingCaps caps p with
  | nil => simp
  | cons c cs =>
    cases hcov : (cs.foldl (fun a d => a.join d.access) c.access).covers m <;> simp [hcov]

/-- C8. Raw-rule filter soundness: any rule string containing
`subpath "/"` together with one of the forbidden verbs is rejected with
`Invalid` (so nothing is appended), and `platform_rule` succeeds only by
appending an accepted rule to `raw_rules`. -/
theorem raw_rule_filter_sound (caps : CapabilitySet) (raw : String) :
    (strContains raw "subpath \"/\"" = true →
      (∃ v ∈ forbiddenVerbs, strContains raw v = true) →
      caps.platform_rule raw = .error (.Invalid "rule_too_broad"))
    ∧ (∀ caps2, caps.platform_rule raw = .ok caps2 →
      ruleTooBroad raw = false ∧ caps2.raw_rules = caps.raw_rules ++ [raw]) := by
  constructor
  · intro hsub hverb
    have hbroad : ruleTooBroad raw = true := by
      unfold ruleTooBroad
      rw [hsub]
      rcases hverb with ⟨v, hv, hcv⟩
      have : forbiddenVerbs.any (fun v => strContains raw v) = true :=
        List.any_eq_true.mpr ⟨v, hv, hcv⟩
      rw [this]
      rfl
    unfold CapabilitySet.platform_rule
    rw [hbroad]
    rfl
  · intro caps2 hok
    unfold CapabilitySet.platform_rule at hok
    cases hbroad : ruleTooBroad raw with
    | true => simp [hbroad] at hok
    | false =>
      rw [hbroad] at hok
      simp only [Bool.false_eq_true, if_false, Except.ok.injEq] at hok
      exact ⟨rfl, by rw [← hok]⟩

/-- Concrete instance of C8: the documented dangerous rule
`(allow file-read* (subpath "/"))` is rejected as `Invalid`, and a
harmless accepted rule is appended verbatim. -/
theorem raw_rule_filter_sound_witness :
    CapabilitySet.new.platform_rule "(allow file-read* (subpath \"/\"))"
        = .error (.Invalid "rule_too_broad")
    ∧ (ruleTooBroad "(allow mach-lookup)" = false
       ∧ (⟨[], false, [], [], ["(allow mach-lookup)"]⟩ : CapabilitySet).raw_rules
           = CapabilitySet.new.raw_rules ++ ["(allow mach-lookup)"]) :=
  ⟨(raw_rule_filter_sound CapabilitySet.new "(allow file-read* (subpath \"/\"))").1
      (by decide) ⟨"file-read*", by decide, by decide⟩,
   (raw_rule_filter_sound CapabilitySet.new "(allow mach-lookup)").2
      ⟨[], false, [], [], ["(allow mach-lookup)"]⟩ (by rfl)⟩

theorem exBind_ok (a : α) (f : α → Except Err β) : (Except.ok a >>= f) = f a :=
  rfl

theorem exBind_err (e : Err) (f : α → Except Err β) :
    (Except.error e >>= f : Except Err β) = .error e :=
  rfl

theorem resolve_dir_error_shape (fsys : FileSystem) (p : String) (err : Err) :
    fsys.resolve_dir p = .error err → err = .NotFound p ∨ err = .WrongKind p := by
  unfold FileSystem.resolve_dir
  cases fsys.lookup p with
  | none => intro h; injection h with h2; exact Or.inl h2.symm
  | some v =>
    rcases v with ⟨r, isf⟩
    cases isf
    · intro h; simp at h
    · intro h
      simp only [if_true] at h
      injection h with h2
      exact Or.inr h2.symm

theorem resolve_file_error_shape (fsys : FileSystem) (p : String) (err : Err) :
    fsys.resolve_file p = .error err → err = .NotFound p ∨ err = .WrongKind p := by
  unfold FileSystem.resolve_file
  cases fsys.lookup p with
  | none => intro h; injection h with h2; exact Or.inl h2.symm
  | some v =>
    rcases v with ⟨r, isf⟩
    cases isf
    · intro h
      simp only [Bool.false_eq_true, if_false] at h
      injection h with h2
      exact Or.inr h2.symm
    · intro h; simp at h

theorem resolveEntry_error_shape (fsys : FileSystem) (e : StateEntry) (err : Err) :
    resolveEntry fsys e = .error err →
    (∃ p, err = .NotFound p) ∨ (∃ p, err = .WrongKind p) := by
  unfold resolveEntry
  cases e.is_file
  · simp only [Bool.false_eq_true, if_false]
    intro h
    rcases resolve_dir_error_shape fsys e.original err h with h2 | h2
    · exact Or.inl ⟨e.original, h2⟩
    · exact Or.inr ⟨e.original, h2⟩
  · simp only [if_true]
    intro h
    rcases resolve_file_error_shape fsys e.original err h with h2 | h2
    · exact Or.inl ⟨e.original, h2⟩
    · exact Or.inr ⟨e.original, h2⟩

theorem mapE_error_mem (f : α → Except Err β) (l : List α) (err : Err) :
    mapE f l = .error err → ∃ a ∈ l, f a = .error err := by
  induction l with
  | nil => intro h; exact absurd h (by simp [mapE])
  | cons a t ih =>
    intro h
    unfold mapE at h
    cases ha : f a with
    | error e2 =>
      rw [ha, exBind_err] at h
      injection h with h2
      exact ⟨a, List.mem_cons_self a t, by rw [ha, h2]⟩
    | ok b =>
      rw [ha, exBind_ok] at h
      cases ht : mapE f t with
      | error e2 =>
        rw [ht, exBind_err] at h
        injection h with h2
        obtain ⟨x, hx, hfx⟩ := ih (by rw [ht, h2])
        exact ⟨x, List.mem_cons_of_mem a hx, hfx⟩
      | ok bs => rw [ht, exBind_ok] at h; exact absurd h (by simp)

theorem mapE_ok_mem (f : α → Except Err β) (l : List α) (out : List β) :
    mapE f l = .ok out → (∀ a ∈ l, ∃ b, f a = .ok b) ∧ out.length = l.length := by
  induction l generalizing out with
  | nil =>
    intro h
    unfold mapE at h
    injection h with h2
    simp [← h2]
  | cons a t ih =>
    intro h
    unfold mapE at h
    cases ha : f a with
    | error e2 => rw [ha, exBind_err] at h; exact absurd h (by simp)
    | ok b =>
      rw [ha, exBind_ok] at h
      cases ht : mapE f t with
      | error e2 => rw [ht, exBind_err] at h; exact absurd h (by simp)
      | ok bs =>
        rw [ht, exBind_ok] at h
        injection h with h2
        obtain ⟨hmem, hlen⟩ := ih bs ht
        refine ⟨?_, ?_⟩
        · intro x hx
          rcases List.mem_cons.mp hx with hx1 | hx2
          · exact ⟨b, by rw [hx1, ha]⟩
          · exact hmem x hx2
        · rw [← h2]
          simp [hlen]

theorem mapE_not_ok (f : α → Except Err β) (l : List α) (a : α) (err : Err)
    (ha : a ∈ l) (hf : f a = .error err) : ∀ out, mapE f l ≠ .ok out := by
  intro out hok
  obtain ⟨hmem, _⟩ := mapE_ok_mem f l out hok
  obtain ⟨b, hb⟩ := hmem a ha
  rw [hf] at hb
  exact absurd hb (by simp)

theorem entryToCap_error (fsys : FileSystem) (e : StateEntry) (err : Err) :
    entryToCap fsys e = .error err → resolveEntry fsys e = .error err := by
  unfold entryToCap
  cases hr : resolveEntry fsys e with
  | error e2 =>
    rw [exBind_err]
    intro h
    injection h with h2
    rw [h2]
  | ok r =>
    rw [exBind_ok]
    intro h
    exact absurd h (by simp [pure, Except.pure])

/-- C7. Materialization is atomic: if any loaded entry fails to
re-resolve, `to_caps` fails with a `NotFound` or `WrongKind` error and
yields no capability set; if it succeeds, every entry resolved and the
produced set carries all of them plus the unchanged flags and lists. -/
theorem to_caps_atomic (fsys : FileSystem) (s : SandboxState) :
    ((∃ e ∈ s.fs, ∃ err, resolveEntry fsys e = .error err) →
      ∃ err, s.to_caps fsys = .error err
        ∧ ((∃ p, err = .NotFound p) ∨ (∃ p, err = .WrongKind p)))
    ∧ (∀ caps, s.to_caps fsys = .ok caps →
      (∀ e ∈ s.fs, ∃ r, resolveEntry fsys e = .ok r)
      ∧ caps.fs.length = s.fs.length
      ∧ caps.net_blocked = s.net_blocked ∧ caps.cmd_allow = s.cmd_allow
      ∧ caps.cmd_block = s.cmd_block ∧ caps.raw_rules = s.raw_rules) := by
  constructor
  · rintro ⟨e, he, err, herr⟩
    have hfe : entryToCap fsys e = .error err := by
      unfold entryToCap
      rw [herr, exBind_err]
    cases hm : mapE (entryToCap fsys) s.fs with
    | error err2 =>
      obtain ⟨x, hx, hfx⟩ := mapE_error_mem _ _ _ hm
      refine ⟨err2, ?_, ?_⟩
      · unfold SandboxState.to_caps
        rw [hm, exBind_err]
      · exact resolveEntry_error_shape fsys x err2 (entryToCap_error fsys x err2 hfx)
    | ok out => exact absurd hm (mapE_not_ok _ _ e err he hfe out)
  · intro caps hok
    unfold SandboxState.to_caps at hok
    cases hm : mapE (entryToCap fsys) s.fs with
    | error err2 => rw [hm, exBind_err] at hok; exact absurd hok (by simp)
    | ok out =>
      rw [hm, exBind_ok] at hok
      injection hok with h2
      obtain ⟨hmem, hlen⟩ := mapE_ok_mem _ _ _ hm
      refine ⟨?_, ?_, ?_, ?_, ?_, ?_⟩
      · intro e he
        obtain ⟨b, hb⟩ := hmem e he
        revert hb
        unfold entryToCap
        cases hr : resolveEntry fsys e with
        | error e2 => rw [exBind_err]; intro hb; exact absurd hb (by simp)
        | ok r => intro hb; exact ⟨r, rfl⟩
      all_goals rw [← h2]
      exact hlen

/-- The stale-state scenario of the spec: a snapshot recording one file
entry whose path may no longer resolve. -/
def staleState : SandboxState :=
  ⟨[⟨"/T/f", .READ, true, .user⟩], false, [], [], []⟩

/-- Concrete instance of C7: with the recorded file deleted (empty
filesystem) `to_caps` fails with `NotFound`; with the file present it
succeeds with the complete capability set. -/
theorem to_caps_atomic_witness :
    (∃ err, staleState.to_caps [] = .error err
      ∧ ((∃ p, err = .NotFound p) ∨ (∃ p, err = .WrongKind p)))
    ∧ ((∀ e ∈ staleState.fs, ∃ r, resolveEntry [("/T/f", ["T", "f"], true)] e = .ok r)
      ∧ (⟨[⟨"/T/f", ["T", "f"], .READ, true, .user⟩], false, [], [], []⟩
            : CapabilitySet).fs.length = staleState.fs.length
      ∧ (⟨[⟨"/T/f", ["T", "f"], .READ, true, .user⟩], false, [], [], []⟩
            : CapabilitySet).net_blocked = staleState.net_blocked
      ∧ (⟨[⟨"/T/f", ["T", "f"], .READ, true, .user⟩], false, [], [], []⟩
            : CapabilitySet).cmd_allow = staleState.cmd_allow
      ∧ (⟨[⟨"/T/f", ["T", "f"], .READ, true, .user⟩], false, [], [], []⟩
            : CapabilitySet).cmd_block = staleState.cmd_block
      ∧ (⟨[⟨"/T/f", ["T", "f"], .READ, true, .user⟩], false, [], [], []⟩
            : CapabilitySet).raw_rules = staleState.raw_rules) :=
  ⟨(to_caps_atomic [] staleState).1
      ⟨⟨"/T/f", .READ, true, .user⟩, by decide, .NotFound "/T/f", by rfl⟩,
   (to_caps_atomic [("/T/f", ["T", "f"], true)] staleState).2
      ⟨[⟨"/T/f", ["T", "f"], .READ, true, .user⟩], false, [], [], []⟩ (by rfl)⟩

/-- The join of the accesses of a group of capabilities (`none` when the
group is empty). -/
def joinAccesses : List FsCapability → Option AccessMode
  | [] => none
  | c :: cs => some (cs.foldl (fun a d => a.join d.access) c.access)

theorem key_foldl_merge (l : List FsCapability) :
    ∀ c : FsCapability, (l.foldl FsCapability.merge c).key = c.key := by
  induction l with
  | nil => intro c; rfl
  | cons d t ih => intro c; exact ih (c.merge d)

theorem access_foldl_merge (l : List FsCapability) :
    ∀ c : FsCapability,
      (l.foldl FsCapability.merge c).access
        = l.foldl (fun a d => a.join d.access) c.access := by
  induction l with
  | nil => intro c; rfl
  | cons d t ih => intro c; exact ih (c.merge d)

theorem mem_dedupFs_key (l : List FsCapability) :
    ∀ e ∈ dedupFs l, ∃ x ∈ l, x.key = e.key := by
  induction l using dedupFs.induct with
  | case1 => intro e he; exact absurd he (by simp [dedupFs])
  | case2 c rest ih =>
    intro e he
    rw [dedupFs] at he
    rcases List.mem_cons.mp he with he1 | he2
    · exact ⟨c, List.mem_cons_self c rest, by rw [he1, key_foldl_merge]⟩
    · obtain ⟨x, hx, hk⟩ := ih e he2
      exact ⟨x, List.mem_cons_of_mem c (List.mem_of_mem_filter hx), hk⟩

theorem dedupFs_pairwise (l : List FsCapability) :
    (dedupFs l).Pairwise (fun a b => a.key ≠ b.key) := by
  induction l using dedupFs.induct with
  | case1 => simp [dedupFs]
  | case2 c rest ih =>
    rw [dedupFs]
    refine List.Pairwise.cons ?_ ih
    intro b hb hkey
    obtain ⟨x, hx, hk⟩ := mem_dedupFs_key _ b hb
    have hxc : ¬ x.key = c.key := by
      have := List.of_mem_filter hx
      simpa using this
    rw [key_foldl_merge] at hkey
    exact hxc (by rw [hk, ← hkey])

theorem dedupFs_access (l : List FsCapability) :
    ∀ e ∈ dedupFs l,
      joinAccesses (l.filter (fun d => d.key = e.key)) = some e.access := by
  induction l using dedupFs.induct with
  | case1 => intro e he; exact absurd he (by simp [dedupFs])
  | case2 c rest ih =>
    intro e he
    rw [dedupFs] at he
    rcases List.mem_cons.mp he with he1 | he2
    · have hek : e.key = c.key := by rw [he1, key_foldl_merge]
      have hfc : (c :: rest).filter (fun d => decide (d.key = e.key))
          = c :: rest.filter (fun d => decide (d.key = c.key)) := by
        rw [List.filter_cons_of_pos (by simp [hek])]
        congr 1
        exact List.filter_congr (fun d _ => by simp [hek])
      rw [hfc]
      unfold joinAccesses
      rw [he1, access_foldl_merge]
    · have h := ih e he2
      have hek : ¬ e.key = c.key := by
        obtain ⟨x, hx, hk⟩ := mem_dedupFs_key _ e he2
        have hxc : ¬ x.key = c.key := by
          have := List.of_mem_filter hx
          simpa using this
        rw [← hk]
        exact hxc
      have hfc : (c :: rest).filter (fun d => decide (d.key = e.key))
          = (rest.filter (fun d => decide ¬ d.key = c.key)).filter
              (fun d => decide (d.key = e.key)) := by
        rw [List.filter_cons_of_neg (by simp; intro hc; exact hek hc.symm),
          List.filter_filter]
        exact List.filter_congr (fun d _ => by
          by_cases hd : d.key = e.key
          · simp [hd, hek]
          · simp [hd])
      rw [hfc]
      exact h

theorem dedupFs_map_key (l : List FsCapability) :
    (dedupFs l).map FsCapability.key
      = firstOccurrences (l.map FsCapability.key) := by
  induction l using dedupFs.induct with
  | case1 => simp [dedupFs, firstOccurrences]
  | case2 c rest ih =>
    rw [dedupFs]
    show ((rest.filter fun d => decide (d.key = c.key)).foldl FsCapability.merge c).key
        :: (dedupFs (rest.filter fun d => decide ¬ d.key = c.key)).map FsCapability.key
      = firstOccurrences ((c :: rest).map FsCapability.key)
    rw [key_foldl_merge, List.map_cons, firstOccurrences, ih, List.filter_map]
    simp [Function.comp_def]

/-- A set granting `/tmp` read and then write, the dedup scenario of the
tests and examples. -/
def capsDupRW : CapabilitySet :=
  ⟨[⟨"/tmp", ["tmp"], .READ, false, .user⟩, ⟨"/tmp", ["tmp"], .WRITE, false, .user⟩],
   false, [], [], []⟩

/-- C5. After `deduplicate()` no two fs entries share a `(resolved,
is_file)` key, each surviving entry's access is the join of the accesses
of all entries with its key, survivors sit in first-occurrence order; in
particular `R` then `W` on the same directory leaves exactly one
capability with access `RW`. -/
theorem deduplicate_spec :
    (∀ caps : CapabilitySet,
      caps.deduplicate.fs.Pairwise (fun a b => a.key ≠ b.key)
      ∧ (∀ e ∈ caps.deduplicate.fs,
          joinAccesses (caps.fs.filter (fun d => d.key = e.key)) = some e.access)
      ∧ caps.deduplicate.fs.map FsCapability.key
          = firstOccurrences (caps.fs.map FsCapability.key))
    ∧ capsDupRW.deduplicate.fs = [⟨"/tmp", ["tmp"], .READ_WRITE, false, .user⟩] := by
  constructor
  · intro caps
    exact ⟨dedupFs_pairwise caps.fs,
      fun e he => dedupFs_access caps.fs e he,
      dedupFs_map_key caps.fs⟩
  · simp [CapabilitySet.deduplicate, dedupFs, capsDupRW, FsCapability.key,
      FsCapability.merge, AccessMode.join, CapabilitySource.merge]

/-- Concrete instance of C5: the surviving `/tmp` capability of the
dedup scenario carries the join `RW` of the merged `R` and `W` grants. -/
theorem deduplicate_spec_witness :
    joinAccesses (capsDupRW.fs.filter (fun d =>
        d.key = (⟨"/tmp", ["tmp"], .READ_WRITE, false, .user⟩ : FsCapability).key))
      = some AccessMode.READ_WRITE :=
  (deduplicate_spec.1 capsDupRW).2.1 ⟨"/tmp", ["tmp"], .READ_WRITE, false, .user⟩
    (by simp [CapabilitySet.deduplicate, dedupFs, capsDupRW, FsCapability.key,
      FsCapability.merge, AccessMode.join, CapabilitySource.merge])

theorem decodeAccess_encode (a : AccessMode) : decodeAccess (.jstr a.text) = .ok a := by
  cases a <;> rfl

theorem decodeSource_encode (s : CapabilitySource) :
    decodeSource (encodeSource s) = .ok s := by
  cases s <;> rfl

theorem decodeEntry_encode (e : StateEntry) : decodeEntry (encodeEntry e) = .ok e := by
  rcases e with ⟨o, a, f, src⟩
  cases a <;> cases src <;> rfl

theorem mapE_decodeEntry_encode (l : List StateEntry) :
    mapE decodeEntry (l.map encodeEntry) = .ok l := by
  induction l with
  | nil => rfl
  | cons e t ih =>
    show mapE decodeEntry (encodeEntry e :: t.map encodeEntry) = .ok (e :: t)
    unfold mapE
    rw [decodeEntry_encode, exBind_ok, ih, exBind_ok]

theorem mapE_decodeStr_encode (l : List String) :
    mapE decodeStr (l.map .jstr) = .ok l := by
  induction l with
  | nil => rfl
  | cons s t ih =>
    show mapE decodeStr (.jstr s :: t.map .jstr) = .ok (s :: t)
    unfold mapE
    rw [ih]
    rfl

theorem decodeStrList_encode (l : List String) :
    decodeStrList (.jarr (l.map .jstr)) = .ok l := by
  unfold decodeStrList
  exact mapE_decodeStr_encode l

theorem strAscending_tail (a : String) (t : List String) :
    strAscending (a :: t) = true → strAscending t = true := by
  cases t with
  | nil => intro; rfl
  | cons b u =>
    intro h
    rw [strAscending, Bool.and_eq_true] at h
    exact h.2

theorem sortStrings_ascending (l : List String) :
    strAscending l = true → sortStrings l = l := by
  induction l with
  | nil => intro; rfl
  | cons s t ih =>
    intro h
    have ht := strAscending_tail s t h
    show insertStr s (sortStrings t) = s :: t
    rw [ih ht]
    cases t with
    | nil => rfl
    | cons b u =>
      rw [strAscending, Bool.and_eq_true] at h
      unfold insertStr
      rw [h.1]
      rfl

/-- C6. Serialization round-trips: decoding the encoding of any sandbox
state (its command lists in their canonical ascending set order) returns
exactly that state — fs entries, network flag, command lists and raw
rules — independently of any filesystem, which the decoder never takes. -/
theorem state_roundtrip (s : SandboxState)
    (ha : strAscending s.cmd_allow = true) (hb : strAscending s.cmd_block = true) :
    SandboxState.from_json s.to_json = .ok s := by
  rcases s with ⟨fsE, nb, ca, cb, rr⟩
  show SandboxState.from_json (SandboxState.to_json ⟨fsE, nb, ca, cb, rr⟩) = _
  unfold SandboxState.to_json
  unfold SandboxState.from_json
  rw [sortStrings_ascending ca ha, sortStrings_ascending cb hb]
  show (do
      let fsE2 ← mapE decodeEntry (List.map encodeEntry fsE)
      let caL ← decodeStrList (Json.jarr (List.map Json.jstr ca))
      let cbL ← decodeStrList (Json.jarr (List.map Json.jstr cb))
      let rrL ← decodeStrList (Json.jarr (List.map Json.jstr rr))
      Except.ok (⟨fsE2, nb, caL, cbL, rrL⟩ : SandboxState))
    = Except.ok ⟨fsE, nb, ca, cb, rr⟩
  rw [mapE_decodeEntry_encode, exBind_ok, decodeStrList_encode, exBind_ok,
    decodeStrList_encode, exBind_ok, decodeStrList_encode, exBind_ok]

/-- A concrete populated state whose command sets are in canonical
order. -/
def sampleState : SandboxState :=
  ⟨[⟨"/tmp", .READ_WRITE, false, .user⟩, ⟨"/T/f", .READ, true, .group "devs"⟩],
   true, ["git", "ls"], ["rm"], ["(allow mach-lookup)"]⟩

/-- Concrete instance of C6: the populated sample state round-trips. -/
theorem state_roundtrip_witness :
    SandboxState.from_json sampleState.to_json = .ok sampleState :=
  state_roundtrip sampleState (by rfl) (by rfl)

theorem validAccess_of_ok (j : Json) (a : AccessMode) :
    decodeAccess j = .ok a → validAccessJson j = true := by
  unfold decodeAccess
  split <;> intro h
  · rfl
  · rfl
  · rfl
  · exact absurd h (by simp)

theorem ok_of_validAccess (j : Json) :
    validAccessJson j = true → ∃ a, decodeAccess j = .ok a := by
  unfold validAccessJson
  split <;> intro h
  · exact ⟨.READ, rfl⟩
  · exact ⟨.WRITE, rfl⟩
  · exact ⟨.READ_WRITE, rfl⟩
  · exact absurd h (by simp)

theorem decodeAccess_error_shape (j : Json) (e : Err) :
    decodeAccess j = .error e → ∃ msg, e = .Invalid msg := by
  unfold decodeAccess
  split <;> intro h
  · exact absurd h (by simp)
  · exact absurd h (by simp)
  · exact absurd h (by simp)
  · injection h with h2; exact ⟨"bad access", h2.symm⟩

theorem validSource_of_ok (j : Json) (s : CapabilitySource) :
    decodeSource j = .ok s → validSourceJson j = true := by
  unfold decodeSource
  split <;> intro h
  · rfl
  · rfl
  · rfl
  · exact absurd h (by simp)

theorem ok_of_validSource (j : Json) :
    validSourceJson j = true → ∃ s, decodeSource j = .ok s := by
  unfold validSourceJson
  split <;> intro h
  · exact ⟨.user, rfl⟩
  · exact ⟨.group _, rfl⟩
  · exact ⟨.system, rfl⟩
  · exact absurd h (by simp)

theorem decodeSource_error_shape (j : Json) (e : Err) :
    decodeSource j = .error e → ∃ msg, e = .Invalid msg := by
  unfold decodeSource
  split <;> intro h
  · exact absurd h (by simp)
  · exact absurd h (by simp)
  · exact absurd h (by simp)
  · injection h with h2; exact ⟨"bad source", h2.symm⟩

theorem validStr_of_ok (j : Json) (s : String) :
    decodeStr j = .ok s → isStrJson j = true := by
  unfold decodeStr
  split <;> intro h
  · rfl
  · exact absurd h (by simp)

theorem ok_of_validStr (j : Json) :
    isStrJson j = true → ∃ s, decodeStr j = .ok s := by
  unfold isStrJson
  split <;> intro h
  · exact ⟨_, rfl⟩
  · exact absurd h (by simp)

theorem decodeStr_error_shape (j : Json) (e : Err) :
    decodeStr j = .error e → ∃ msg, e = .Invalid msg := by
  unfold decodeStr
  split <;> intro h
  · exact absurd h (by simp)
  · injection h with h2; exact ⟨"expected string", h2.symm⟩

theorem validEntry_of_ok (j : Json) (e : StateEntry) :
    decodeEntry j = .ok e → validEntryJson j = true := by
  unfold decodeEntry
  split <;> intro h
  case h_1 o a f src =>
    cases ha : decodeAccess a with
    | error e2 => rw [ha, exBind_err] at h; exact absurd h (by simp)
    | ok am =>
      rw [ha, exBind_ok] at h
      cases hs : decodeSource src with
      | error e2 => rw [hs, exBind_err] at h; exact absurd h (by simp)
      | ok sv =>
        show (validAccessJson a && validSourceJson src) = true
        rw [validAccess_of_ok a am ha, validSource_of_ok src sv hs]
        rfl
  case h_2 => exact absurd h (by simp)

theorem ok_of_validEntry (j : Json) :
    validEntryJson j = true → ∃ e, decodeEntry j = .ok e := by
  unfold validEntryJson
  split <;> intro h
  case h_1 o a f src =>
    rw [Bool.and_eq_true] at h
    obtain ⟨am, ha⟩ := ok_of_validAccess a h.1
    obtain ⟨sv, hs⟩ := ok_of_validSource src h.2
    refine ⟨⟨o, am, f, sv⟩, ?_⟩
    show (do
        let am2 ← decodeAccess a
        let sv2 ← decodeSource src
        Except.ok (⟨o, am2, f, sv2⟩ : StateEntry)) = _
    rw [ha, exBind_ok, hs, exBind_ok]
  case h_2 => exact absurd h (by simp)

theorem decodeEntry_error_shape (j : Json) (e : Err) :
    decodeEntry j = .error e → ∃ msg, e = .Invalid msg := by
  unfold decodeEntry
  split <;> intro h
  case h_1 o a f src =>
    cases ha : decodeAccess a with
    | error e2 =>
      rw [ha, exBind_err] at h
      injection h with h2
      rw [← h2] at *
      exact decodeAccess_error_shape a e2 ha
    | ok am =>
      rw [ha, exBind_ok] at h
      cases hs : decodeSource src with
      | error e2 =>
        rw [hs, exBind_err] at h
        injection h with h2
        rw [← h2] at *
        exact decodeSource_error_shape src e2 hs
      | ok sv => rw [hs, exBind_ok] at h; exact absurd h (by simp)
  case h_2 => injection h with h2; exact ⟨"bad fs entry", h2.symm⟩

theorem mapE_ok_of_all (f : α → Except Err β) (v : α → Bool)
    (hfv : ∀ x, v x = true → ∃ b, f x = .ok b) (l : List α) :
    l.all v = true → ∃ out, mapE f l = .ok out := by
  induction l with
  | nil => intro; exact ⟨[], rfl⟩
  | cons x t ih =>
    intro h
    rw [List.all_cons, Bool.and_eq_true] at h
    obtain ⟨b, hb⟩ := hfv x h.1
    obtain ⟨out, hout⟩ := ih h.2
    refine ⟨b :: out, ?_⟩
    unfold mapE
    rw [hb, exBind_ok, hout, exBind_ok]

theorem all_of_mapE_ok (f : α → Except Err β) (v : α → Bool)
    (hvf : ∀ x b, f x = .ok b → v x = true) (l : List α) (out : List β) :
    mapE f l = .ok out → l.all v = true := by
  intro h
  rw [List.all_eq_true]
  intro x hx
  obtain ⟨b, hb⟩ := (mapE_ok_mem f l out h).1 x hx
  exact hvf x b hb

theorem mapE_error_shape (f : α → Except Err β)
    (hshape : ∀ x e2, f x = .error e2 → ∃ msg, e2 = .Invalid msg)
    (l : List α) (e : Err) :
    mapE f l = .error e → ∃ msg, e = .Invalid msg := by
  intro h
  obtain ⟨x, _, hfx⟩ := mapE_error_mem f l e h
  exact hshape x e hfx

theorem validStrList_of_ok (j : Json) (l : List String) :
    decodeStrList j = .ok l → validStrListJson j = true := by
  unfold decodeStrList
  split <;> intro h
  case h_1 xs =>
    show xs.all isStrJson = true
    exact all_of_mapE_ok decodeStr isStrJson validStr_of_ok xs l h
  case h_2 => exact absurd h (by simp)

theorem ok_of_validStrList (j : Json) :
    validStrListJson j = true → ∃ l, decodeStrList j = .ok l := by
  unfold validStrListJson
  split <;> intro h
  case h_1 xs => exact mapE_ok_of_all decodeStr isStrJson ok_of_validStr xs h
  case h_2 => exact absurd h (by simp)

theorem decodeStrList_error_shape (j : Json) (e : Err) :
    decodeStrList j = .error e → ∃ msg, e = .Invalid msg := by
  unfold decodeStrList
  split <;> intro h
  case h_1 xs => exact mapE_error_shape decodeStr decodeStr_error_shape xs e h
  case h_2 => injection h with h2; exact ⟨"expected array of strings", h2.symm⟩

/-- C9. Decoding is strictly validating: `from_text` succeeds exactly on
version-1 objects with the recognized keys and well-typed values, and
every failure is an `Invalid` error. (Textually malformed input is
rejected by the JSON layer before this model begins.) -/
theorem from_json_strict (j : Json) :
    ((∃ s, SandboxState.from_json j = .ok s) ↔ validStateJson j = true)
    ∧ (∀ e, SandboxState.from_json j = .error e → ∃ msg, e = .Invalid msg) := by
  constructor
  · constructor
    · rintro ⟨s, hs⟩
      unfold SandboxState.from_json at hs
      split at hs
      case h_1 entries nb ca cb rr =>
        cases hfs : mapE decodeEntry entries with
        | error e2 => rw [hfs, exBind_err] at hs; exact absurd hs (by simp)
        | ok fsE =>
          rw [hfs, exBind_ok] at hs
          cases hca : decodeStrList ca with
          | error e2 => rw [hca, exBind_err] at hs; exact absurd hs (by simp)
          | ok caL =>
            rw [hca, exBind_ok] at hs
            cases hcb : decodeStrList cb with
            | error e2 => rw [hcb, exBind_err] at hs; exact absurd hs (by simp)
            | ok cbL =>
              rw [hcb, exBind_ok] at hs
              cases hrr : decodeStrList rr with
              | error e2 => rw [hrr, exBind_err] at hs; exact absurd hs (by simp)
              | ok rrL =>
                show (((entries.all validEntryJson && validStrListJson ca)
                    && validStrListJson cb) && validStrListJson rr) = true
                rw [all_of_mapE_ok decodeEntry validEntryJson validEntry_of_ok
                    entries fsE hfs,
                  validStrList_of_ok ca caL hca, validStrList_of_ok cb cbL hcb,
                  validStrList_of_ok rr rrL hrr]
                rfl
      case h_2 => exact absurd hs (by simp)
    · intro hv
      unfold validStateJson at hv
      split at hv
      case h_1 entries nb ca cb rr =>
        rw [Bool.and_eq_true, Bool.and_eq_true, Bool.and_eq_true] at hv
        obtain ⟨⟨⟨h1, h2⟩, h3⟩, h4⟩ := hv
        obtain ⟨fsE, hfs⟩ :=
          mapE_ok_of_all decodeEntry validEntryJson ok_of_validEntry entries h1
        obtain ⟨caL, hca⟩ := ok_of_validStrList ca h2
        obtain ⟨cbL, hcb⟩ := ok_of_validStrList cb h3
        obtain ⟨rrL, hrr⟩ := ok_of_validStrList rr h4
        refine ⟨⟨fsE, nb, caL, cbL, rrL⟩, ?_⟩
        show (do
            let fsE2 ← mapE decodeEntry entries
            let caL2 ← decodeStrList ca
            let cbL2 ← decodeStrList cb
            let rrL2 ← decodeStrList rr
            Except.ok (⟨fsE2, nb, caL2, cbL2, rrL2⟩ : SandboxState)) = _
        rw [hfs, exBind_ok, hca, exBind_ok, hcb, exBind_ok, hrr, exBind_ok]
      case h_2 => exact absurd hv (by simp)
  · intro e he
    unfold SandboxState.from_json at he
    split at he
    case h_1 entries nb ca cb rr =>
      cases hfs : mapE decodeEntry entries with
      | error e2 =>
        rw [hfs, exBind_err] at he
        injection he with h2
        rw [← h2]
        exact mapE_error_shape decodeEntry decodeEntry_error_shape entries e2 hfs
      | ok fsE =>
        rw [hfs, exBind_ok] at he
        cases hca : decodeStrList ca with
        | error e2 =>
          rw [hca, exBind_err] at he
          injection he with h2
          rw [← h2]
          exact decodeStrList_error_shape ca e2 hca
        | ok caL =>
          rw [hca, exBind_ok] at he
          cases hcb : decodeStrList cb with
          | error e2 =>
            rw [hcb, exBind_err] at he
            injection he with h2
            rw [← h2]
            exact decodeStrList_error_shape cb e2 hcb
          | ok cbL =>
            rw [hcb, exBind_ok] at he
            cases hrr : decodeStrList rr with
            | error e2 =>
              rw [hrr, exBind_err] at he
              injection he with h2
              rw [← h2]
              exact decodeStrList_error_shape rr e2 hrr
            | ok rrL => rw [hrr, exBind_ok] at he; exact absurd he (by simp)
    case h_2 => injection he with h2; exact ⟨"schema violation", h2.symm⟩

/-- Concrete instance of C9: the empty object is not valid schema text
and decoding it yields an `Invalid` error. -/
theorem from_json_strict_witness :
    validStateJson (Json.jobj []) = false
    ∧ (∃ msg, Err.Invalid "schema violation" = Err.Invalid msg) :=
  ⟨rfl,
   (from_json_strict (Json.jobj [])).2 (Err.Invalid "schema violation") rfl⟩
